import Mathlib

/-!
Verification of the Traditional-to-Simplified documentation converter
(`scripts/tc2sc.py`).

The script processes each document as follows:

* if the document starts with `<!-- do not translate -->` or
  `<!-- verbatim -->`, it is passed through unchanged (whole-document
  bypass);
* otherwise `re.findall` is run over the alternation pattern
  `((?:<!-- do not translate -->[\S\s]+?<!-- do not translate -->)
    |(?:<!-- verbatim -->[\S\s]+?<!-- verbatim -->)
    |(?:X.+?X)|(?:<.+?>)|(?:[^X<>]+)|(?:[\r\n]+)|(?:[<>]))+?`
  (where `X` stands for the backtick character), and each returned segment
  that starts with a backtick or `<` is kept as-is while every other
  segment is run through the OpenCC converter `t2s.convert`;
* finally every occurrence of `/zht/` in the output is replaced by `/`
  (Python `str.replace`) and the result is written out.

The segmentation semantics of the regex (ordered alternation, lazy
closing delimiters, `.` not matching a newline, `re.findall` skipping a
position where no alternative matches) is embedded below over `List Char`.
The converter is an abstract parameter `convert : List Char → List Char`.
-/

namespace Tc2sc

/-- The backtick character (written by code point to keep source plain). -/
def btick : Char := Char.ofNat 96

/-- Classification of a segment, following the alternation branches of the
regex `pat` in `tc2sc.py` (the `[\r\n]+` branch is unreachable because the
`[^X<>]+` branch already accepts newline characters). -/
inductive SpanKind where
  | verbatim
  | codeSpan
  | tag
  | plainText
  | loneBracket
deriving DecidableEq, Repr

/-- First sentinel marker, `<!-- do not translate -->`. -/
def M1 : List Char := "<!-- do not translate -->".data

/-- Second sentinel marker, `<!-- verbatim -->`. -/
def M2 : List Char := "<!-- verbatim -->".data

/-- The path-prefix token `/zht/` removed from the final output. -/
def zhtTok : List Char := "/zht/".data

/-- Characters accepted by the `[^X<>]+` branch (any character that is not
a backtick, `<` or `>`; newlines are accepted). -/
def plainChar (c : Char) : Bool :=
  decide (c ≠ btick ∧ c ≠ '<' ∧ c ≠ '>')

/-- Find the first occurrence of `m` in `t`: returns `(pre, rest)` with
`t = pre ++ m ++ rest` and no occurrence of `m` starting inside `pre`. -/
def findOcc (m : List Char) : List Char → Option (List Char × List Char)
  | [] => if m.isPrefixOf ([] : List Char) then some ([], []) else none
  | x :: xs =>
    if m.isPrefixOf (x :: xs) then some ([], (x :: xs).drop m.length)
    else (findOcc m xs).map (fun pr => (x :: pr.1, pr.2))

/-- Close an inline verbatim region: given the text after the opening
marker, the lazy `[\S\s]+?` content must be nonempty, so the closing
marker is the first occurrence of `m` at offset at least 1.  Returns
`(content ++ m, rest)`. -/
def closeVerb (m : List Char) : List Char → Option (List Char × List Char)
  | [] => none
  | x :: xs => (findOcc m xs).map (fun pr => (x :: pr.1 ++ m, pr.2))

/-- The two verbatim branches `<!-- marker -->[\S\s]+?<!-- marker -->` of
the pattern. -/
def tryVerb (m : List Char) (s : List Char) : Option (List Char × List Char) :=
  if m.isPrefixOf s then
    (closeVerb m (s.drop m.length)).map (fun pr => (m ++ pr.1, pr.2))
  else none

/-- Scan for the closing delimiter `cl`: the content chars are matched by
`.` (anything except a newline) and the scan is lazy, so the match closes
at the first `cl`, and fails if a newline or the end of input comes
first.  Returns `(content, rest)`. -/
def findCloseCh (cl : Char) : List Char → Option (List Char × List Char)
  | [] => none
  | x :: xs =>
    if x = cl then some ([], xs)
    else if x = '\n' then none
    else (findCloseCh cl xs).map (fun pr => (x :: pr.1, pr.2))

/-- Close a code span or tag: the lazy `.+?` content must be nonempty, so
one non-newline char is consumed first, then the closing char is the
first occurrence of `cl` (with no newline in between).  Returns
`(content ++ [cl], rest)`. -/
def closeDelim (cl : Char) : List Char → Option (List Char × List Char)
  | [] => none
  | y :: ys =>
    if y = '\n' then none
    else (findCloseCh cl ys).map (fun pr => ((y :: pr.1) ++ [cl], pr.2))

/-- The `X.+?X` (code span) and `<.+?>` (tag) branches of the pattern. -/
def tryDelim (op cl : Char) : List Char → Option (List Char × List Char)
  | [] => none
  | x :: xs =>
    if x = op then (closeDelim cl xs).map (fun pr => (x :: pr.1, pr.2)) else none

/-- The greedy `[^X<>]+` branch of the pattern. -/
def tryPlain : List Char → Option (List Char × List Char)
  | [] => none
  | x :: xs =>
    if plainChar x then some (x :: xs.takeWhile plainChar, xs.dropWhile plainChar)
    else none

/-- The `[<>]` branch of the pattern. -/
def tryLone : List Char → Option (List Char × List Char)
  | [] => none
  | x :: xs => if x = '<' || x = '>' then some ([x], xs) else none

/-- One match attempt of the ordered alternation at the current position.
`none` means no branch matches (which happens exactly on an unmatched
backtick), in which case `re.findall` advances one character without
emitting anything. -/
def step (s : List Char) : Option ((List Char × SpanKind) × List Char) :=
  match tryVerb M1 s with
  | some pr => some ((pr.1, SpanKind.verbatim), pr.2)
  | none =>
  match tryVerb M2 s with
  | some pr => some ((pr.1, SpanKind.verbatim), pr.2)
  | none =>
  match tryDelim btick btick s with
  | some pr => some ((pr.1, SpanKind.codeSpan), pr.2)
  | none =>
  match tryDelim '<' '>' s with
  | some pr => some ((pr.1, SpanKind.tag), pr.2)
  | none =>
  match tryPlain s with
  | some pr => some ((pr.1, SpanKind.plainText), pr.2)
  | none =>
  match tryLone s with
  | some pr => some ((pr.1, SpanKind.loneBracket), pr.2)
  | none => none

/-- Fuel-driven left-to-right scan of `re.findall` (each iteration
consumes at least one character, so `s.length` fuel suffices). -/
def segmentAux : Nat → List Char → List (List Char × SpanKind)
  | 0, _ => []
  | _ + 1, [] => []
  | fuel + 1, x :: xs =>
    match step (x :: xs) with
    | some (seg, rest) => seg :: segmentAux fuel rest
    | none => segmentAux fuel xs

/-- The segments of a document together with their kinds. -/
def segmentSpans (s : List Char) : List (List Char × SpanKind) :=
  segmentAux s.length s

/-- `res` of the script: the list returned by `re.findall`. -/
def segment (s : List Char) : List (List Char) :=
  (segmentSpans s).map Prod.fst

/-- One iteration of the `res_zht` loop: a segment starting with a
backtick or `<` is passed through, any other segment goes through the
converter. -/
def transformSeg (convert : List Char → List Char) (seg : List Char) : List Char :=
  if [btick].isPrefixOf seg || ['<'].isPrefixOf seg then seg else convert seg

/-- `"".join(res_zht)`: transform every segment and concatenate. -/
def transformAll (convert : List Char → List Char) (doc : List Char) : List Char :=
  ((segmentSpans doc).map (fun pr => transformSeg convert pr.1)).flatten

/-- Per-document processing before the path rewrite: whole-document
bypass when the document starts with a sentinel marker, otherwise
segmentation plus selective conversion. -/
def processDoc (convert : List Char → List Char) (doc : List Char) : List Char :=
  if M1.isPrefixOf doc || M2.isPrefixOf doc then doc
  else transformAll convert doc

/-- Fuel-driven body of Python `str.replace` (left-to-right,
non-overlapping, the scan resumes after the replacement text). -/
def replaceAux (pat rep : List Char) : Nat → List Char → List Char
  | 0, t => t
  | _ + 1, [] => []
  | fuel + 1, x :: xs =>
    if pat.isPrefixOf (x :: xs) then
      rep ++ replaceAux pat rep fuel ((x :: xs).drop pat.length)
    else x :: replaceAux pat rep fuel xs

/-- Python `str.replace` for a nonempty pattern. -/
def pyReplace (pat rep t : List Char) : List Char :=
  if pat.isEmpty then t else replaceAux pat rep t.length t

/-- The full per-document pipeline of the script: selective conversion
followed by `output.replace("/zht/", "/")`. -/
def pipeline (convert : List Char → List Char) (doc : List Char) : List Char :=
  pyReplace zhtTok ['/'] (processDoc convert doc)

/-- Whether `pat` occurs as a contiguous sublist of `t`. -/
def occursTok (pat : List Char) : List Char → Bool
  | [] => pat.isEmpty
  | x :: xs => pat.isPrefixOf (x :: xs) || occursTok pat xs

/-- A Han character (CJK Unified Ideographs block). -/
def hanChar (c : Char) : Bool :=
  decide (0x4E00 ≤ c.toNat ∧ c.toNat ≤ 0x9FFF)

/-- A text with no Han characters. -/
def hanFree (t : List Char) : Bool :=
  t.all (fun c => !hanChar c)

/-! ### Soundness of the match attempts -/

theorem findOcc_sound (m : List Char) :
    ∀ t p r, findOcc m t = some (p, r) → t = p ++ m ++ r := by
  intro t
  induction t with
  | nil =>
    intro p r h
    simp only [findOcc] at h
    split at h
    · next hpre =>
      have hm : m <+: ([] : List Char) := List.isPrefixOf_iff_prefix.mp hpre
      have : m = [] := List.prefix_nil.mp hm
      simp only [Option.some.injEq, Prod.mk.injEq] at h
      simp [← h.1, ← h.2, this]
    · exact absurd h (by simp)
  | cons x xs ih =>
    intro p r h
    simp only [findOcc] at h
    split at h
    · next hpre =>
      simp only [Option.some.injEq, Prod.mk.injEq] at h
      have hm : m <+: x :: xs := List.isPrefixOf_iff_prefix.mp hpre
      have := List.prefix_iff_eq_append.mp hm
      simp [← h.1, ← h.2, this]
    · cases hfo : findOcc m xs with
      | none => rw [hfo] at h; exact absurd h (by simp)
      | some pr0 =>
        rw [hfo] at h
        simp only [Option.map_some', Option.some.injEq, Prod.mk.injEq] at h
        have := ih pr0.1 pr0.2 (by rw [hfo])
        simp [← h.1, ← h.2, this]

theorem closeVerb_sound (m : List Char) :
    ∀ t b r, closeVerb m t = some (b, r) → t = b ++ r ∧ b ≠ [] := by
  intro t b r h
  cases t with
  | nil => exact absurd h (by simp [closeVerb])
  | cons x xs =>
    simp only [closeVerb] at h
    cases hfo : findOcc m xs with
    | none => rw [hfo] at h; exact absurd h (by simp)
    | some pr0 =>
      rw [hfo] at h
      simp only [Option.map_some', Option.some.injEq, Prod.mk.injEq] at h
      have := findOcc_sound m xs pr0.1 pr0.2 (by rw [hfo])
      constructor
      · simp [← h.1, ← h.2, this]
      · rw [← h.1]; simp

theorem tryVerb_sound (m s : List Char) :
    ∀ seg r, tryVerb m s = some (seg, r) →
      s = seg ++ r ∧ seg ≠ [] ∧ ∃ b, seg = m ++ b := by
  intro seg r h
  simp only [tryVerb] at h
  split at h
  · next hpre =>
    cases hc : closeVerb m (s.drop m.length) with
    | none => rw [hc] at h; exact absurd h (by simp)
    | some pr0 =>
      rw [hc] at h
      simp only [Option.map_some', Option.some.injEq, Prod.mk.injEq] at h
      have hsp := List.prefix_iff_eq_append.mp (List.isPrefixOf_iff_prefix.mp hpre)
      have hcs := closeVerb_sound m (s.drop m.length) pr0.1 pr0.2 (by rw [hc])
      refine ⟨?_, ?_, ⟨pr0.1, h.1.symm⟩⟩
      · rw [← h.1, ← h.2]
        conv_lhs => rw [← hsp]
        rw [hcs.1]
        simp
      · rw [← h.1]
        intro hcon
        have := List.append_eq_nil.mp hcon
        exact hcs.2 this.2
  · exact absurd h (by simp)

theorem findCloseCh_sound (cl : Char) :
    ∀ t p r, findCloseCh cl t = some (p, r) → t = p ++ cl :: r := by
  intro t
  induction t with
  | nil => intro p r h; exact absurd h (by simp [findCloseCh])
  | cons x xs ih =>
    intro p r h
    simp only [findCloseCh] at h
    split at h
    · next hx =>
      simp only [Option.some.injEq, Prod.mk.injEq] at h
      simp [← h.1, ← h.2, hx]
    · split at h
      · exact absurd h (by simp)
      · cases hf : findCloseCh cl xs with
        | none => rw [hf] at h; exact absurd h (by simp)
        | some pr0 =>
          rw [hf] at h
          simp only [Option.map_some', Option.some.injEq, Prod.mk.injEq] at h
          have := ih pr0.1 pr0.2 (by rw [hf])
          simp [← h.1, ← h.2, this]

theorem closeDelim_sound (cl : Char) :
    ∀ t b r, closeDelim cl t = some (b, r) → t = b ++ r ∧ b ≠ [] := by
  intro t b r h
  cases t with
  | nil => exact absurd h (by simp [closeDelim])
  | cons y ys =>
    simp only [closeDelim] at h
    split at h
    · exact absurd h (by simp)
    · cases hf : findCloseCh cl ys with
      | none => rw [hf] at h; exact absurd h (by simp)
      | some pr0 =>
        rw [hf] at h
        simp only [Option.map_some', Option.some.injEq, Prod.mk.injEq] at h
        have := findCloseCh_sound cl ys pr0.1 pr0.2 (by rw [hf])
        constructor
        · simp [← h.1, ← h.2, this]
        · rw [← h.1]; simp

theorem tryDelim_sound (op cl : Char) (s : List Char) :
    ∀ seg r, tryDelim op cl s = some (seg, r) →
      s = seg ++ r ∧ ∃ b, seg = op :: b := by
  intro seg r h
  cases s with
  | nil => exact absurd h (by simp [tryDelim])
  | cons x xs =>
    simp only [tryDelim] at h
    split at h
    · next hx =>
      cases hc : closeDelim cl xs with
      | none => rw [hc] at h; exact absurd h (by simp)
      | some pr0 =>
        rw [hc] at h
        simp only [Option.map_some', Option.some.injEq, Prod.mk.injEq] at h
        have := closeDelim_sound cl xs pr0.1 pr0.2 (by rw [hc])
        subst hx
        refine ⟨?_, ⟨pr0.1, h.1.symm⟩⟩
        simp [← h.1, ← h.2, this.1]
    · exact absurd h (by simp)

theorem tryPlain_sound (s : List Char) :
    ∀ seg r, tryPlain s = some (seg, r) →
      s = seg ++ r ∧ ∃ x t, seg = x :: t ∧ plainChar x = true := by
  intro seg r h
  cases s with
  | nil => exact absurd h (by simp [tryPlain])
  | cons x xs =>
    simp only [tryPlain] at h
    split at h
    · next hx =>
      simp only [Option.some.injEq, Prod.mk.injEq] at h
      refine ⟨?_, ⟨x, xs.takeWhile plainChar, h.1.symm, hx⟩⟩
      simp [← h.1, ← h.2]
    · exact absurd h (by simp)

theorem tryLone_sound (s : List Char) :
    ∀ seg r, tryLone s = some (seg, r) →
      s = seg ++ r ∧ (seg = ['<'] ∨ seg = ['>']) := by
  intro seg r h
  cases s with
  | nil => exact absurd h (by simp [tryLone])
  | cons x xs =>
    simp only [tryLone] at h
    split at h
    · next hx =>
      simp only [Option.some.injEq, Prod.mk.injEq] at h
      rcases Bool.or_eq_true_iff.mp hx with h1 | h1
      · exact ⟨by simp [← h.1, ← h.2], Or.inl (by rw [← h.1, of_decide_eq_true h1])⟩
      · exact ⟨by simp [← h.1, ← h.2], Or.inr (by rw [← h.1, of_decide_eq_true h1])⟩
    · exact absurd h (by simp)

theorem plainChar_true_iff {c : Char} :
    plainChar c = true ↔ (c ≠ btick ∧ c ≠ '<' ∧ c ≠ '>') := by
  simp [plainChar]

theorem plainChar_false_iff {c : Char} :
    plainChar c = false ↔ (c = btick ∨ c = '<' ∨ c = '>') := by
  simp only [plainChar, decide_eq_false_iff_not]
  tauto

/-- A successful match consumes a nonempty segment and keeps the rest. -/
theorem step_sound {s : List Char} {pr} (h : step s = some pr) :
    s = pr.1.1 ++ pr.2 ∧ pr.1.1 ≠ [] := by
  simp only [step] at h
  cases h1 : tryVerb M1 s with
  | some q =>
    rw [h1] at h
    simp only [Option.some.injEq] at h
    have := tryVerb_sound M1 s q.1 q.2 (by rw [h1])
    rw [← h]
    exact ⟨this.1, this.2.1⟩
  | none =>
  rw [h1] at h
  cases h2 : tryVerb M2 s with
  | some q =>
    rw [h2] at h
    simp only [Option.some.injEq] at h
    have := tryVerb_sound M2 s q.1 q.2 (by rw [h2])
    rw [← h]
    exact ⟨this.1, this.2.1⟩
  | none =>
  rw [h2] at h
  cases h3 : tryDelim btick btick s with
  | some q =>
    rw [h3] at h
    simp only [Option.some.injEq] at h
    have := tryDelim_sound btick btick s q.1 q.2 (by rw [h3])
    rw [← h]
    refine ⟨this.1, ?_⟩
    obtain ⟨b, hb⟩ := this.2
    simp [hb]
  | none =>
  rw [h3] at h
  cases h4 : tryDelim '<' '>' s with
  | some q =>
    rw [h4] at h
    simp only [Option.some.injEq] at h
    have := tryDelim_sound '<' '>' s q.1 q.2 (by rw [h4])
    rw [← h]
    refine ⟨this.1, ?_⟩
    obtain ⟨b, hb⟩ := this.2
    simp [hb]
  | none =>
  rw [h4] at h
  cases h5 : tryPlain s with
  | some q =>
    rw [h5] at h
    simp only [Option.some.injEq] at h
    have := tryPlain_sound s q.1 q.2 (by rw [h5])
    rw [← h]
    refine ⟨this.1, ?_⟩
    obtain ⟨x, t, hb, _⟩ := this.2
    simp [hb]
  | none =>
  rw [h5] at h
  cases h6 : tryLone s with
  | some q =>
    rw [h6] at h
    simp only [Option.some.injEq] at h
    have := tryLone_sound s q.1 q.2 (by rw [h6])
    rw [← h]
    refine ⟨this.1, ?_⟩
    rcases this.2 with hb | hb <;> simp [hb]
  | none =>
    rw [h6] at h
    exact absurd h (by simp)

/-- The only character at which no branch of the alternation matches is an
unmatched backtick: `re.findall` silently skips (drops) it. -/
theorem step_none_btick {x : Char} {xs : List Char} (h : step (x :: xs) = none) :
    x = btick := by
  simp only [step] at h
  cases h1 : tryVerb M1 (x :: xs) <;> rw [h1] at h
  case some => exact absurd h (by simp)
  cases h2 : tryVerb M2 (x :: xs) <;> rw [h2] at h
  case some => exact absurd h (by simp)
  cases h3 : tryDelim btick btick (x :: xs) <;> rw [h3] at h
  case some => exact absurd h (by simp)
  cases h4 : tryDelim '<' '>' (x :: xs) <;> rw [h4] at h
  case some => exact absurd h (by simp)
  cases h5 : tryPlain (x :: xs) <;> rw [h5] at h
  case some => exact absurd h (by simp)
  cases h6 : tryLone (x :: xs) <;> rw [h6] at h
  case some => exact absurd h (by simp)
  simp only [tryPlain] at h5
  have hplain : plainChar x = false := by
    by_contra hc
    have : plainChar x = true := by revert hc; cases plainChar x <;> simp
    rw [if_pos this] at h5
    exact absurd h5 (by simp)
  simp only [tryLone] at h6
  have hlone : ¬(x = '<' ∨ x = '>') := by
    intro hc
    have : (x = '<' || x = '>') = true := by
      rcases hc with hc | hc <;> simp [hc]
    rw [if_pos this] at h6
    exact absurd h6 (by simp)
  have := plainChar_false_iff.mp hplain
  rcases this with hb | hb | hb
  · exact hb
  · exact absurd (Or.inl hb) hlone
  · exact absurd (Or.inr hb) hlone

theorem segmentAux_nil (n : Nat) : segmentAux n [] = [] := by
  cases n <;> rfl

/-- The result of the scan does not depend on the fuel, as long as the
fuel covers the length of the input. -/
theorem segmentAux_congr :
    ∀ (k n m : Nat) (s : List Char), s.length ≤ k → s.length ≤ n → s.length ≤ m →
      segmentAux n s = segmentAux m s := by
  intro k
  induction k with
  | zero =>
    intro n m s hk _ _
    have : s = [] := List.eq_nil_of_length_eq_zero (Nat.le_zero.mp hk)
    subst this
    rw [segmentAux_nil, segmentAux_nil]
  | succ k ih =>
    intro n m s hk hn hm
    cases s with
    | nil => rw [segmentAux_nil, segmentAux_nil]
    | cons x xs =>
      simp only [List.length_cons] at hk hn hm
      obtain ⟨n0, rfl⟩ : ∃ n0, n = n0 + 1 := ⟨n - 1, by omega⟩
      obtain ⟨m0, rfl⟩ : ∃ m0, m = m0 + 1 := ⟨m - 1, by omega⟩
      simp only [segmentAux]
      cases hstep : step (x :: xs) with
      | none =>
        exact ih n0 m0 xs (by omega) (by omega) (by omega)
      | some pr =>
        obtain ⟨⟨seg, kd⟩, rest⟩ := pr
        have hs := step_sound hstep
        have hpos : 1 ≤ seg.length := List.length_pos.mpr hs.2
        have hlen : rest.length + seg.length = xs.length + 1 := by
          have := congrArg List.length hs.1
          simp only [List.length_cons, List.length_append] at this
          omega
        show (seg, kd) :: segmentAux n0 rest = (seg, kd) :: segmentAux m0 rest
        congr 1
        exact ih n0 m0 rest (by omega) (by omega) (by omega)

/-- Unfolding lemma: a successful match contributes its segment. -/
theorem segmentSpans_eq_step {s seg : List Char} {kd : SpanKind} {rest : List Char}
    (h : step s = some ((seg, kd), rest)) :
    segmentSpans s = (seg, kd) :: segmentSpans rest := by
  cases s with
  | nil => exact absurd h (by simp [step, tryVerb, tryDelim, tryPlain, tryLone, M1, M2])
  | cons x xs =>
    have hs := step_sound h
    have hlen : rest.length ≤ xs.length := by
      have hpos : 1 ≤ seg.length := List.length_pos.mpr hs.2
      have := congrArg List.length hs.1
      simp only [List.length_cons, List.length_append] at this
      omega
    show segmentAux (x :: xs).length (x :: xs) = (seg, kd) :: segmentAux rest.length rest
    simp only [List.length_cons, segmentAux, h]
    congr 1
    exact segmentAux_congr xs.length xs.length rest.length rest hlen hlen le_rfl

/-- Unfolding lemma: a failed match drops one character. -/
theorem segmentSpans_eq_drop {x : Char} {xs : List Char} (h : step (x :: xs) = none) :
    segmentSpans (x :: xs) = segmentSpans xs := by
  show segmentAux (x :: xs).length (x :: xs) = segmentAux xs.length xs
  simp only [List.length_cons, segmentAux, h]

/-! ### Computing `step` on structured inputs -/

theorem isPrefixOf_self_append (a r : List Char) : a.isPrefixOf (a ++ r) = true := by
  simp

theorem head_not_pre {c x : Char} {l r : List Char} (hne : c ≠ x) :
    (c :: l).isPrefixOf (x :: r) = false := by
  by_contra hb
  have hb' : (c :: l).isPrefixOf (x :: r) = true := by
    revert hb; cases (c :: l).isPrefixOf (x :: r) <;> simp
  have := List.isPrefixOf_iff_prefix.mp hb'
  rw [List.cons_prefix_cons] at this
  exact hne this.1

theorem M1_not_pre {x : Char} (hx : x ≠ '<') (r : List Char) :
    M1.isPrefixOf (x :: r) = false := by
  have h1 : M1 = '<' :: M1.tail := rfl
  rw [h1]
  exact head_not_pre (fun h => hx h.symm)

theorem M2_not_pre {x : Char} (hx : x ≠ '<') (r : List Char) :
    M2.isPrefixOf (x :: r) = false := by
  have h1 : M2 = '<' :: M2.tail := rfl
  rw [h1]
  exact head_not_pre (fun h => hx h.symm)

theorem tryVerb_none_of {m s : List Char} (h : m.isPrefixOf s = false) :
    tryVerb m s = none := by
  simp [tryVerb, h]

theorem tryVerb_self {m r b rest : List Char} (h : closeVerb m r = some (b, rest)) :
    tryVerb m (m ++ r) = some (m ++ b, rest) := by
  simp [tryVerb, isPrefixOf_self_append, List.drop_left, h]

theorem tryDelim_none_head {op cl x : Char} {xs : List Char} (h : x ≠ op) :
    tryDelim op cl (x :: xs) = none := by
  simp [tryDelim, h]

theorem tryDelim_none_close {op cl : Char} {xs : List Char}
    (h : closeDelim cl xs = none) : tryDelim op cl (op :: xs) = none := by
  simp [tryDelim, h]

theorem tryDelim_some {op cl : Char} {xs b rest : List Char}
    (h : closeDelim cl xs = some (b, rest)) :
    tryDelim op cl (op :: xs) = some (op :: b, rest) := by
  simp [tryDelim, h]

theorem tryPlain_none {x : Char} {xs : List Char} (h : plainChar x = false) :
    tryPlain (x :: xs) = none := by
  simp [tryPlain, h]

theorem tryPlain_some {x : Char} {xs : List Char} (h : plainChar x = true) :
    tryPlain (x :: xs) = some (x :: xs.takeWhile plainChar, xs.dropWhile plainChar) := by
  simp [tryPlain, h]

/-- `step` at the opening of a sentinel region that closes: the first
alternative (or the second for `M2`) matches the whole region. -/
theorem step_verb1 {r b rest : List Char} (h : closeVerb M1 r = some (b, rest)) :
    step (M1 ++ r) = some ((M1 ++ b, SpanKind.verbatim), rest) := by
  simp only [step, tryVerb_self h]

theorem step_verb2 {r b rest : List Char} (h : closeVerb M2 r = some (b, rest)) :
    step (M2 ++ r) = some ((M2 ++ b, SpanKind.verbatim), rest) := by
  have h1 : tryVerb M1 (M2 ++ r) = none := by
    have hp : M1.isPrefixOf (M2 ++ r) = false := rfl
    exact tryVerb_none_of hp
  simp only [step, h1, tryVerb_self h]

/-- `step` at a plain character: the greedy plain-run branch matches. -/
theorem step_plain {x : Char} {xs : List Char} (hx : plainChar x = true) :
    step (x :: xs)
      = some ((x :: xs.takeWhile plainChar, SpanKind.plainText), xs.dropWhile plainChar) := by
  obtain ⟨hb, hlt, hgt⟩ := plainChar_true_iff.mp hx
  simp only [step, tryVerb_none_of (M1_not_pre hlt xs), tryVerb_none_of (M2_not_pre hlt xs),
    tryDelim_none_head hb, tryDelim_none_head hlt, tryPlain_some hx]

/-- `step` at a backtick that opens a code span. -/
theorem step_code {xs b rest : List Char} (h : closeDelim btick xs = some (b, rest)) :
    step (btick :: xs) = some ((btick :: b, SpanKind.codeSpan), rest) := by
  have hne : btick ≠ '<' := by decide
  simp only [step, tryVerb_none_of (M1_not_pre hne xs), tryVerb_none_of (M2_not_pre hne xs),
    tryDelim_some h]

/-- `step` at an unmatched backtick: no alternative matches. -/
theorem step_code_none {xs : List Char} (h : closeDelim btick xs = none) :
    step (btick :: xs) = none := by
  have hne : btick ≠ '<' := by decide
  have hne2 : btick ≠ '>' := by decide
  have hplain : plainChar btick = false := by decide
  have hlone : tryLone (btick :: xs) = none := by
    simp [tryLone, hne, hne2]
  simp only [step, tryVerb_none_of (M1_not_pre hne xs), tryVerb_none_of (M2_not_pre hne xs),
    tryDelim_none_close h, tryDelim_none_head hne, tryPlain_none hplain, hlone]

/-- `step` at a `<` that opens no verbatim region and no tag: the
lone-bracket branch matches. -/
theorem step_lt_lone {xs : List Char}
    (h1 : tryVerb M1 ('<' :: xs) = none) (h2 : tryVerb M2 ('<' :: xs) = none)
    (hc : closeDelim '>' xs = none) :
    step ('<' :: xs) = some ((['<'], SpanKind.loneBracket), xs) := by
  have hne : '<' ≠ btick := by decide
  have hplain : plainChar '<' = false := by decide
  have hlone : tryLone ('<' :: xs) = some (['<'], xs) := by simp [tryLone]
  simp only [step, h1, h2, tryDelim_none_head hne, tryDelim_none_close hc,
    tryPlain_none hplain, hlone]

/-- `step` at a `>`: always the lone-bracket branch. -/
theorem step_gt_lone (xs : List Char) :
    step ('>' :: xs) = some ((['>'], SpanKind.loneBracket), xs) := rfl

/-- A greedy plain run splits off an all-plain block followed by a
non-plain boundary. -/
theorem takeWhile_all_app {p : Char → Bool} {a b : List Char}
    (ha : ∀ c ∈ a, p c = true) (hb : ∀ y, b.head? = some y → p y = false) :
    (a ++ b).takeWhile p = a ∧ (a ++ b).dropWhile p = b := by
  induction a with
  | nil =>
    simp only [List.nil_append]
    cases b with
    | nil => simp
    | cons y ys =>
      have hy := hb y rfl
      simp [List.takeWhile_cons, List.dropWhile_cons, hy]
  | cons x a' ih =>
    have hx := ha x (by simp)
    have := ih (fun c hc => ha c (by simp [hc]))
    simp [List.takeWhile_cons, List.dropWhile_cons, hx, this.1, this.2]

/-- The segmentation of a document starting with a maximal plain run. -/
theorem segmentSpans_plain_run {w rest : List Char} (hw : w ≠ [])
    (hwp : ∀ c ∈ w, plainChar c = true)
    (hr : ∀ y, rest.head? = some y → plainChar y = false) :
    segmentSpans (w ++ rest) = (w, SpanKind.plainText) :: segmentSpans rest := by
  obtain ⟨x, w', rfl⟩ : ∃ x w', w = x :: w' := by
    cases w with
    | nil => exact absurd rfl hw
    | cons x w' => exact ⟨x, w', rfl⟩
  have hx : plainChar x = true := hwp x (by simp)
  have htd := takeWhile_all_app (a := w') (b := rest)
    (fun c hc => hwp c (by simp [hc])) hr
  have hstep : step (x :: (w' ++ rest))
      = some ((x :: w', SpanKind.plainText), rest) := by
    rw [step_plain hx, htd.1, htd.2]
  rw [List.cons_append, segmentSpans_eq_step hstep]

/-- Scanning for a closing char succeeds at the first occurrence if no
newline comes first. -/
theorem findCloseCh_app {cl : Char} {w r : List Char}
    (hw : ∀ c ∈ w, c ≠ cl ∧ c ≠ '\n') :
    findCloseCh cl (w ++ cl :: r) = some (w, r) := by
  induction w with
  | nil => simp [findCloseCh]
  | cons x w' ih =>
    have hx := hw x (by simp)
    have := ih (fun c hc => hw c (by simp [hc]))
    simp [findCloseCh, hx.1, hx.2, this]

/-- Scanning for a closing char fails if a newline comes first. -/
theorem findCloseCh_none {cl : Char} {w r : List Char} (hcl : cl ≠ '\n')
    (hw : ∀ c ∈ w, c ≠ cl) :
    findCloseCh cl (w ++ '\n' :: r) = none := by
  induction w with
  | nil => simp [findCloseCh, Ne.symm hcl]
  | cons x w' ih =>
    have hx := hw x (by simp)
    have := ih (fun c hc => hw c (by simp [hc]))
    by_cases hxn : x = '\n'
    · simp [findCloseCh, hx, hxn, Ne.symm hcl]
    · simp [findCloseCh, hx, hxn, this]

/-- A code span or tag closes at the first closing delimiter when the
content has no newline and no earlier closing delimiter. -/
theorem closeDelim_app {cl : Char} {s r : List Char} (hs : s ≠ [])
    (hsc : ∀ c ∈ s, c ≠ cl ∧ c ≠ '\n') :
    closeDelim cl (s ++ cl :: r) = some (s ++ [cl], r) := by
  obtain ⟨y, s', rfl⟩ : ∃ y s', s = y :: s' := by
    cases s with
    | nil => exact absurd rfl hs
    | cons y s' => exact ⟨y, s', rfl⟩
  have hy := hsc y (by simp)
  have hf := findCloseCh_app (w := s') (r := r)
    (fun c hc => hsc c (List.mem_cons_of_mem y hc))
  simp [closeDelim, hy.2, hf]

/-- A code span or tag fails to close when a newline comes before any
closing delimiter. -/
theorem closeDelim_none {cl : Char} {w r : List Char} (hcl : cl ≠ '\n')
    (hw : ∀ c ∈ w, c ≠ cl) :
    closeDelim cl (w ++ '\n' :: r) = none := by
  cases w with
  | nil => simp [closeDelim]
  | cons y w' =>
    have hy := hw y (by simp)
    by_cases hyn : y = '\n'
    · simp [closeDelim, hyn]
    · have := findCloseCh_none (w := w') (r := r) hcl
        (fun c hc => hw c (List.mem_cons_of_mem y hc))
      simp [closeDelim, hyn, this]

/-- `step` at a backtick opening a code span whose content has no
backtick and no newline: the span closes at the next backtick. -/
theorem step_code_span {s r : List Char} (hs : s ≠ [])
    (hsc : ∀ c ∈ s, c ≠ btick ∧ c ≠ '\n') :
    step (btick :: (s ++ btick :: r))
      = some ((btick :: (s ++ [btick]), SpanKind.codeSpan), r) :=
  step_code (closeDelim_app hs hsc)

/-! ### The shape of each segment kind -/

/-- Structural facts about a produced segment, by kind: verbatim blocks
and tags start with `<`, code spans with a backtick, plain segments with
a plain character, and a lone-bracket segment is exactly `<` or `>`. -/
def kindShape (pr : List Char × SpanKind) : Prop :=
  (pr.2 = SpanKind.verbatim → ∃ t, pr.1 = '<' :: t)
  ∧ (pr.2 = SpanKind.codeSpan → ∃ t, pr.1 = btick :: t)
  ∧ (pr.2 = SpanKind.tag → ∃ t, pr.1 = '<' :: t)
  ∧ (pr.2 = SpanKind.plainText → ∃ x t, pr.1 = x :: t ∧ plainChar x = true)
  ∧ (pr.2 = SpanKind.loneBracket → pr.1 = ['<'] ∨ pr.1 = ['>'])

theorem step_kindShape {s : List Char} {pr} (h : step s = some pr) : kindShape pr.1 := by
  simp only [step] at h
  cases h1 : tryVerb M1 s with
  | some q =>
    obtain ⟨seg0, rest0⟩ := q
    rw [h1] at h
    simp only [Option.some.injEq] at h
    obtain ⟨b, hb⟩ := (tryVerb_sound M1 s seg0 rest0 (by rw [h1])).2.2
    rw [← h]
    show kindShape (seg0, SpanKind.verbatim)
    refine ⟨fun _ => ⟨M1.tail ++ b, ?_⟩, fun hk => by simp at hk,
      fun hk => by simp at hk, fun hk => by simp at hk,
      fun hk => by simp at hk⟩
    show seg0 = '<' :: (M1.tail ++ b)
    rw [hb]
    rfl
  | none =>
  rw [h1] at h
  cases h2 : tryVerb M2 s with
  | some q =>
    obtain ⟨seg0, rest0⟩ := q
    rw [h2] at h
    simp only [Option.some.injEq] at h
    obtain ⟨b, hb⟩ := (tryVerb_sound M2 s seg0 rest0 (by rw [h2])).2.2
    rw [← h]
    show kindShape (seg0, SpanKind.verbatim)
    refine ⟨fun _ => ⟨M2.tail ++ b, ?_⟩, fun hk => by simp at hk,
      fun hk => by simp at hk, fun hk => by simp at hk,
      fun hk => by simp at hk⟩
    show seg0 = '<' :: (M2.tail ++ b)
    rw [hb]
    rfl
  | none =>
  rw [h2] at h
  cases h3 : tryDelim btick btick s with
  | some q =>
    obtain ⟨seg0, rest0⟩ := q
    rw [h3] at h
    simp only [Option.some.injEq] at h
    obtain ⟨b, hb⟩ := (tryDelim_sound btick btick s seg0 rest0 (by rw [h3])).2
    rw [← h]
    show kindShape (seg0, SpanKind.codeSpan)
    exact ⟨fun hk => by simp at hk, fun _ => ⟨b, hb⟩,
      fun hk => by simp at hk, fun hk => by simp at hk,
      fun hk => by simp at hk⟩
  | none =>
  rw [h3] at h
  cases h4 : tryDelim '<' '>' s with
  | some q =>
    obtain ⟨seg0, rest0⟩ := q
    rw [h4] at h
    simp only [Option.some.injEq] at h
    obtain ⟨b, hb⟩ := (tryDelim_sound '<' '>' s seg0 rest0 (by rw [h4])).2
    rw [← h]
    show kindShape (seg0, SpanKind.tag)
    exact ⟨fun hk => by simp at hk, fun hk => by simp at hk,
      fun _ => ⟨b, hb⟩, fun hk => by simp at hk,
      fun hk => by simp at hk⟩
  | none =>
  rw [h4] at h
  cases h5 : tryPlain s with
  | some q =>
    obtain ⟨seg0, rest0⟩ := q
    rw [h5] at h
    simp only [Option.some.injEq] at h
    obtain ⟨x, t, hb, hx⟩ := (tryPlain_sound s seg0 rest0 (by rw [h5])).2
    rw [← h]
    show kindShape (seg0, SpanKind.plainText)
    exact ⟨fun hk => by simp at hk, fun hk => by simp at hk,
      fun hk => by simp at hk, fun _ => ⟨x, t, hb, hx⟩,
      fun hk => by simp at hk⟩
  | none =>
  rw [h5] at h
  cases h6 : tryLone s with
  | some q =>
    obtain ⟨seg0, rest0⟩ := q
    rw [h6] at h
    simp only [Option.some.injEq] at h
    have hb := (tryLone_sound s seg0 rest0 (by rw [h6])).2
    rw [← h]
    show kindShape (seg0, SpanKind.loneBracket)
    exact ⟨fun hk => by simp at hk, fun hk => by simp at hk,
      fun hk => by simp at hk, fun hk => by simp at hk,
      fun _ => hb⟩
  | none =>
    rw [h6] at h
    exact absurd h (by simp)


theorem mem_segmentSpans_kindShape :
    ∀ (n : Nat) (s : List Char), s.length ≤ n → ∀ pr ∈ segmentSpans s, kindShape pr := by
  intro n
  induction n with
  | zero =>
    intro s hlen pr hpr
    have : s = [] := List.eq_nil_of_length_eq_zero (Nat.le_zero.mp hlen)
    subst this
    exact absurd hpr (by simp [segmentSpans, segmentAux])
  | succ n ih =>
    intro s hlen pr hpr
    cases s with
    | nil => exact absurd hpr (by simp [segmentSpans, segmentAux])
    | cons x xs =>
      simp only [List.length_cons] at hlen
      cases hstep : step (x :: xs) with
      | some q =>
        obtain ⟨⟨seg, kd⟩, rest⟩ := q
        rw [segmentSpans_eq_step hstep] at hpr
        rcases List.mem_cons.mp hpr with rfl | hmem
        · exact step_kindShape hstep
        · have hs := step_sound hstep
          have hpos : 1 ≤ seg.length := List.length_pos.mpr hs.2
          have hrl : rest.length ≤ n := by
            have := congrArg List.length hs.1
            simp only [List.length_cons, List.length_append] at this
            omega
          exact ih rest hrl pr hmem
      | none =>
        rw [segmentSpans_eq_drop hstep] at hpr
        exact ih xs (by omega) pr hpr

/-- Every segment the Segmenter produces satisfies its kind shape. -/
theorem segmentSpans_kindShape (s : List Char) :
    ∀ pr ∈ segmentSpans s, kindShape pr :=
  mem_segmentSpans_kindShape s.length s le_rfl

/-! ### Behaviour of the Selective Transformer per segment shape -/

theorem transformSeg_lt (convert : List Char → List Char) (t : List Char) :
    transformSeg convert ('<' :: t) = '<' :: t := by
  simp [transformSeg, List.isPrefixOf]

theorem transformSeg_tick (convert : List Char → List Char) (t : List Char) :
    transformSeg convert (btick :: t) = btick :: t := by
  simp [transformSeg, List.isPrefixOf]

theorem transformSeg_conv {x : Char} (convert : List Char → List Char)
    (xs : List Char) (h : plainChar x = true) :
    transformSeg convert (x :: xs) = convert (x :: xs) := by
  obtain ⟨hb, hlt, _⟩ := plainChar_true_iff.mp h
  have h1 : [btick].isPrefixOf (x :: xs) = false := head_not_pre (fun hc => hb hc.symm)
  have h2 : ['<'].isPrefixOf (x :: xs) = false := head_not_pre (fun hc => hlt hc.symm)
  simp [transformSeg, h1, h2]

theorem transformSeg_gt (convert : List Char → List Char) :
    transformSeg convert ['>'] = convert ['>'] := rfl

/-! ### Prefix-splitting helpers -/

theorem split_pre : ∀ (u t v : List Char), t <+: u ++ v →
    t <+: u ∨ ∃ w, t = u ++ w ∧ w <+: v := by
  intro u
  induction u with
  | nil =>
    intro t v h
    exact Or.inr ⟨t, by simp, by simpa using h⟩
  | cons x u' ih =>
    intro t v h
    cases t with
    | nil => exact Or.inl List.nil_prefix
    | cons y t' =>
      rw [List.cons_append, List.cons_prefix_cons] at h
      obtain ⟨rfl, h'⟩ := h
      rcases ih t' v h' with h1 | ⟨w, rfl, hw⟩
      · exact Or.inl (List.cons_prefix_cons.mpr ⟨rfl, h1⟩)
      · exact Or.inr ⟨w, by simp, hw⟩

/-- A sentinel marker is never a prefix of `<` followed by plain text and
then a newline: the marker would need a `>` among the plain characters or
a newline inside the marker. -/
theorem marker_not_pre {m mt : List Char} (hm : m = '<' :: mt)
    (hgt : '>' ∈ mt) (hnl : '\n' ∉ mt) (a rest : List Char)
    (ha : ∀ c ∈ a, plainChar c = true) :
    m.isPrefixOf ('<' :: (a ++ '\n' :: rest)) = false := by
  by_contra hb
  have hb' : m.isPrefixOf ('<' :: (a ++ '\n' :: rest)) = true := by
    revert hb; cases m.isPrefixOf ('<' :: (a ++ '\n' :: rest)) <;> simp
  have hpre := List.isPrefixOf_iff_prefix.mp hb'
  rw [hm, List.cons_prefix_cons] at hpre
  have hgtplain : plainChar '>' = false := by decide
  rcases split_pre a mt ('\n' :: rest) hpre.2 with h3 | ⟨w, hw, hw2⟩
  · have hmem : '>' ∈ a := List.IsPrefix.mem hgt h3
    rw [ha '>' hmem] at hgtplain
    exact absurd hgtplain (by simp)
  · cases w with
    | nil =>
      rw [List.append_nil] at hw
      have hmem : '>' ∈ a := hw ▸ hgt
      rw [ha '>' hmem] at hgtplain
      exact absurd hgtplain (by simp)
    | cons z w' =>
      rw [List.cons_prefix_cons] at hw2
      have : '\n' ∈ mt := by
        rw [hw, hw2.1]
        simp
      exact hnl this

/-! ### Python `str.replace` helpers -/

theorem replaceAux_nil (pat rep : List Char) (n : Nat) :
    replaceAux pat rep n [] = [] := by
  cases n <;> rfl

theorem replaceAux_congr (pat rep : List Char) (hpat : pat ≠ []) :
    ∀ (k n m : Nat) (t : List Char), t.length ≤ k → t.length ≤ n → t.length ≤ m →
      replaceAux pat rep n t = replaceAux pat rep m t := by
  intro k
  induction k with
  | zero =>
    intro n m t hk _ _
    have : t = [] := List.eq_nil_of_length_eq_zero (Nat.le_zero.mp hk)
    subst this
    rw [replaceAux_nil, replaceAux_nil]
  | succ k ih =>
    intro n m t hk hn hm
    cases t with
    | nil => rw [replaceAux_nil, replaceAux_nil]
    | cons x xs =>
      simp only [List.length_cons] at hk hn hm
      obtain ⟨n0, rfl⟩ : ∃ n0, n = n0 + 1 := ⟨n - 1, by omega⟩
      obtain ⟨m0, rfl⟩ : ∃ m0, m = m0 + 1 := ⟨m - 1, by omega⟩
      simp only [replaceAux]
      by_cases hpre : pat.isPrefixOf (x :: xs) = true
      · rw [if_pos hpre, if_pos hpre]
        have hlen : ((x :: xs).drop pat.length).length ≤ xs.length := by
          have h1 : 1 ≤ pat.length := by
            cases pat with
            | nil => exact absurd rfl hpat
            | cons p ps => simp
          simp only [List.length_drop, List.length_cons]
          omega
        congr 1
        exact ih n0 m0 _ (by omega) (by omega) (by omega)
      · rw [if_neg hpre, if_neg hpre]
        congr 1
        exact ih n0 m0 xs (by omega) (by omega) (by omega)

theorem pyReplace_cons_neg {pat rep : List Char} {x : Char} {xs : List Char}
    (hpat : pat ≠ []) (h : pat.isPrefixOf (x :: xs) = false) :
    pyReplace pat rep (x :: xs) = x :: pyReplace pat rep xs := by
  have hne : pat.isEmpty = false := by
    cases pat with
    | nil => exact absurd rfl hpat
    | cons p ps => rfl
  simp only [pyReplace, hne, Bool.false_eq_true, if_false, List.length_cons,
    replaceAux, h]

theorem pyReplace_head_occ (pat rep b : List Char) (hpat : pat ≠ []) :
    pyReplace pat rep (pat ++ b) = rep ++ pyReplace pat rep b := by
  obtain ⟨p, ps, rfl⟩ : ∃ p ps, pat = p :: ps := by
    cases pat with
    | nil => exact absurd rfl hpat
    | cons p ps => exact ⟨p, ps, rfl⟩
  have hpre : (p :: ps).isPrefixOf ((p :: ps) ++ b) = true := isPrefixOf_self_append _ _
  show replaceAux (p :: ps) rep ((p :: ps) ++ b).length ((p :: ps) ++ b)
      = rep ++ pyReplace (p :: ps) rep b
  have hlen : ((p :: ps) ++ b).length = (ps ++ b).length + 1 := by simp
  rw [hlen]
  show (if (p :: ps).isPrefixOf (p :: (ps ++ b)) then
      rep ++ replaceAux (p :: ps) rep (ps ++ b).length ((p :: (ps ++ b)).drop (p :: ps).length)
    else p :: replaceAux (p :: ps) rep (ps ++ b).length (ps ++ b))
      = rep ++ pyReplace (p :: ps) rep b
  have hpre2 : (p :: ps).isPrefixOf (p :: (ps ++ b)) = true := hpre
  rw [if_pos hpre2]
  have hdrop : (p :: (ps ++ b)).drop (p :: ps).length = b := List.drop_left (p :: ps) b
  rw [hdrop]
  congr 1
  have hble : b.length ≤ (ps ++ b).length := by simp
  exact replaceAux_congr (p :: ps) rep (by simp) (ps ++ b).length _ _ b hble hble le_rfl

theorem pyReplace_no_occ {pat rep : List Char} (hpat : pat ≠ []) :
    ∀ t, occursTok pat t = false → pyReplace pat rep t = t := by
  intro t
  induction t with
  | nil =>
    intro _
    have hne : pat.isEmpty = false := by
      cases pat with
      | nil => exact absurd rfl hpat
      | cons p ps => rfl
    simp [pyReplace, hne, replaceAux_nil]
  | cons x xs ih =>
    intro h
    simp only [occursTok, Bool.or_eq_false_iff] at h
    rw [pyReplace_cons_neg hpat h.1, ih h.2]

/-! ### Claim theorems -/

/-- Claim C1 (code bug): the lossless-partition invariant fails on the
code.  On the document `a` + backtick + `b` the unmatched backtick matches
no alternative of the pattern, `re.findall` skips it, and the
concatenation of the segments is `ab`: a character of the input is
dropped. -/
theorem c1_lossless_partition_fails :
    (segment ("a`b".data)).flatten = "ab".data
    ∧ (segment ("a`b".data)).flatten ≠ "a`b".data := by
  decide

/-- Claim C2 (counterexample): a lone `>` segment is not a PlainText
segment, yet it is sent to the Converter rather than passed through
byte-identically: with a converter mapping everything to `Q`, the
document `a>b` produces `QQQ`, not `Q>Q`. -/
theorem c2_counterexample :
    segmentSpans ("a>b".data)
      = [("a".data, SpanKind.plainText), (['>'], SpanKind.loneBracket),
         ("b".data, SpanKind.plainText)]
    ∧ processDoc (fun _ => "Q".data) ("a>b".data) = "QQQ".data
    ∧ "QQQ".data ≠ "Q>Q".data := by
  decide

/-- Claim C2 (amended): the transformer concatenates the per-segment
results in order; code spans, tags and verbatim blocks are passed
through byte-identically and PlainText segments go through the
Converter; of the lone-bracket segments, `<` is passed through while `>`
is sent to the Converter. -/
theorem c2_selective_transformation (convert : List Char → List Char) (s : List Char) :
    transformAll convert s
        = ((segmentSpans s).map (fun pr => transformSeg convert pr.1)).flatten
    ∧ ∀ pr ∈ segmentSpans s,
        ((pr.2 = SpanKind.codeSpan ∨ pr.2 = SpanKind.tag ∨ pr.2 = SpanKind.verbatim) →
          transformSeg convert pr.1 = pr.1)
        ∧ (pr.2 = SpanKind.plainText → transformSeg convert pr.1 = convert pr.1)
        ∧ (pr.2 = SpanKind.loneBracket →
            (pr.1 = ['<'] ∧ transformSeg convert pr.1 = pr.1)
            ∨ (pr.1 = ['>'] ∧ transformSeg convert pr.1 = convert pr.1)) := by
  refine ⟨rfl, ?_⟩
  intro pr hpr
  obtain ⟨hv, hcs, htg, hpl, hlb⟩ := segmentSpans_kindShape s pr hpr
  refine ⟨?_, ?_, ?_⟩
  · intro hk
    rcases hk with hk | hk | hk
    · obtain ⟨t, ht⟩ := hcs hk
      rw [ht]
      exact transformSeg_tick convert t
    · obtain ⟨t, ht⟩ := htg hk
      rw [ht]
      exact transformSeg_lt convert t
    · obtain ⟨t, ht⟩ := hv hk
      rw [ht]
      exact transformSeg_lt convert t
  · intro hk
    obtain ⟨x, t, ht, hx⟩ := hpl hk
    rw [ht]
    exact transformSeg_conv convert t hx
  · intro hk
    rcases hlb hk with ht | ht
    · exact Or.inl ⟨ht, by rw [ht]; exact transformSeg_lt convert []⟩
    · exact Or.inr ⟨ht, by rw [ht]; exact transformSeg_gt convert⟩

/-- Witness for C2 (amended) at a concrete code-span segment. -/
theorem c2_selective_transformation_witness :
    transformSeg (fun _ => ([] : List Char)) ("`b`".data) = "`b`".data :=
  ((c2_selective_transformation (fun _ => []) ("a`b`".data)).2
    ("`b`".data, SpanKind.codeSpan) (by decide)).1 (Or.inl rfl)

/-- Claim C3: a document starting with either sentinel marker bypasses
segmentation and conversion entirely; the output is the input with only
the path-prefix rewrite applied, for every converter. -/
theorem c3_whole_document_bypass (convert : List Char → List Char) (doc : List Char)
    (h : M1.isPrefixOf doc = true ∨ M2.isPrefixOf doc = true) :
    pipeline convert doc = pyReplace zhtTok ['/'] doc := by
  have hcond : (M1.isPrefixOf doc || M2.isPrefixOf doc) = true := by
    rcases h with h | h <;> simp [h]
  simp [pipeline, processDoc, hcond]

/-- Witness for C3 at a concrete bypassed document. -/
theorem c3_whole_document_bypass_witness :
    pipeline (fun _ => []) ("<!-- verbatim -->x".data)
      = pyReplace zhtTok ['/'] ("<!-- verbatim -->x".data) :=
  c3_whole_document_bypass (fun _ => []) ("<!-- verbatim -->x".data) (by decide)

/-- Claim C4 (counterexample): a bare `>` is emitted as a lone-bracket
segment but it IS sent to the Converter: with a converter mapping
everything to `W`, the document `x>y` produces `WWW`, and the `>` does
not appear unchanged. -/
theorem c4_counterexample :
    (['>'], SpanKind.loneBracket) ∈ segmentSpans ("x>y".data)
    ∧ processDoc (fun _ => "W".data) ("x>y".data) = "WWW".data
    ∧ "WWW".data ≠ "W>W".data := by
  decide

/-- Claim C4 (amended): a lone-bracket segment is exactly `<` or `>`;
a lone `<` is never sent to the Converter and is emitted unchanged,
while a lone `>` is sent to the Converter (so it is unchanged only when
the Converter preserves it). -/
theorem c4_lone_brackets (convert : List Char → List Char) (s : List Char) :
    ∀ pr ∈ segmentSpans s, pr.2 = SpanKind.loneBracket →
      (pr.1 = ['<'] ∨ pr.1 = ['>'])
      ∧ (pr.1 = ['<'] → transformSeg convert pr.1 = ['<'])
      ∧ (pr.1 = ['>'] → transformSeg convert pr.1 = convert ['>']) := by
  intro pr hpr hk
  obtain ⟨_, _, _, _, hlb⟩ := segmentSpans_kindShape s pr hpr
  refine ⟨hlb hk, ?_, ?_⟩
  · intro h1
    rw [h1]
    exact transformSeg_lt convert []
  · intro h1
    rw [h1]
    exact transformSeg_gt convert

/-- Witness for C4 (amended) at a concrete lone `>` segment. -/
theorem c4_lone_brackets_witness :
    transformSeg (fun _ => "W".data) (['>']) = "W".data := by
  have h := c4_lone_brackets (fun _ => "W".data) ("u>v".data)
    (['>'], SpanKind.loneBracket) (by decide) rfl
  exact (h.2.2 rfl).trans rfl

/-- Claim C5 (counterexample): an unmatched backtick is not treated as
plain content eligible for conversion; it is dropped from the output,
so even with the identity converter the output differs from the input. -/
theorem c5_counterexample :
    processDoc (fun t => t) ("x`y".data) = "xy".data
    ∧ "xy".data ≠ "x`y".data := by
  decide

/-- A sentinel marker cannot be a prefix of `<` followed by text in which
the tag scan finds no closing `>`: the marker itself ends in `>` on the
same line, so it would close the tag. -/
theorem marker_not_pre_of_no_close {m mt : List Char}
    (hm : m = '<' :: mt) (w : List Char) (hmt : mt = w ++ ['>'])
    (hw : ∀ c ∈ w, c ≠ '>' ∧ c ≠ '\n') (hwne : w ≠ [])
    {ys : List Char} (h : closeDelim '>' ys = none) :
    m.isPrefixOf ('<' :: ys) = false := by
  by_contra hb
  have hb' : m.isPrefixOf ('<' :: ys) = true := by
    revert hb; cases m.isPrefixOf ('<' :: ys) <;> simp
  have hpre := List.isPrefixOf_iff_prefix.mp hb'
  rw [hm, List.cons_prefix_cons] at hpre
  obtain ⟨r, hr⟩ := hpre.2
  rw [← hr, hmt, List.append_assoc] at h
  have h' : closeDelim '>' (w ++ '>' :: r) = none := h
  rw [closeDelim_app hwne hw] at h'
  exact absurd h' (by simp)

/-- `step` at an unmatched `<` whose line has no later `>`: the lone
bracket branch matches (in particular neither sentinel marker can be a
prefix). -/
theorem step_lt_lone_of_no_close {ys : List Char} (h : closeDelim '>' ys = none) :
    step ('<' :: ys) = some ((['<'], SpanKind.loneBracket), ys) := by
  have h1 : tryVerb M1 ('<' :: ys) = none :=
    tryVerb_none_of (marker_not_pre_of_no_close rfl
      ("!-- do not translate --".data) (by decide) (by decide) (by decide) h)
  have h2 : tryVerb M2 ('<' :: ys) = none :=
    tryVerb_none_of (marker_not_pre_of_no_close rfl
      ("!-- verbatim --".data) (by decide) (by decide) (by decide) h)
  exact step_lt_lone h1 h2 h

/-- `step` at an unterminated sentinel marker (no closing occurrence of
the same marker): the verbatim branches fail and the tag branch matches
exactly the marker, up to the `>` that ends it. -/
theorem step_marker_tag {m zs : List Char} (hm : m = M1 ∨ m = M2)
    (h : closeVerb m zs = none) :
    step (m ++ zs) = some ((m, SpanKind.tag), zs) := by
  rcases hm with rfl | rfl
  · have h1 : tryVerb M1 (M1 ++ zs) = none := by
      simp [tryVerb, isPrefixOf_self_append, List.drop_left, h]
    have h2 : tryVerb M2 (M1 ++ zs) = none := by
      have hp : M2.isPrefixOf (M1 ++ zs) = false := rfl
      exact tryVerb_none_of hp
    have h3 : tryDelim btick btick (M1 ++ zs) = none := by
      have hsh : M1 ++ zs = '<' :: (M1.tail ++ zs) := rfl
      rw [hsh]
      exact tryDelim_none_head (by decide)
    have hcd : closeDelim '>' (M1.tail ++ zs) = some (M1.tail, zs) := by
      have hmt : M1.tail = "!-- do not translate --".data ++ ['>'] := by decide
      have hrw : M1.tail ++ zs = "!-- do not translate --".data ++ '>' :: zs := by
        rw [hmt, List.append_assoc]
        rfl
      rw [hrw, closeDelim_app (by decide) (by decide), ← hmt]
    have h4 : tryDelim '<' '>' (M1 ++ zs) = some (M1, zs) := by
      have hsh : M1 ++ zs = '<' :: (M1.tail ++ zs) := rfl
      rw [hsh, tryDelim_some hcd]
      rfl
    simp only [step, h1, h2, h3, h4]
  · have h1 : tryVerb M1 (M2 ++ zs) = none := by
      have hp : M1.isPrefixOf (M2 ++ zs) = false := rfl
      exact tryVerb_none_of hp
    have h2 : tryVerb M2 (M2 ++ zs) = none := by
      simp [tryVerb, isPrefixOf_self_append, List.drop_left, h]
    have h3 : tryDelim btick btick (M2 ++ zs) = none := by
      have hsh : M2 ++ zs = '<' :: (M2.tail ++ zs) := rfl
      rw [hsh]
      exact tryDelim_none_head (by decide)
    have hcd : closeDelim '>' (M2.tail ++ zs) = some (M2.tail, zs) := by
      have hmt : M2.tail = "!-- verbatim --".data ++ ['>'] := by decide
      have hrw : M2.tail ++ zs = "!-- verbatim --".data ++ '>' :: zs := by
        rw [hmt, List.append_assoc]
        rfl
      rw [hrw, closeDelim_app (by decide) (by decide), ← hmt]
    have h4 : tryDelim '<' '>' (M2 ++ zs) = some (M2, zs) := by
      have hsh : M2 ++ zs = '<' :: (M2.tail ++ zs) := rfl
      rw [hsh, tryDelim_some hcd]
      rfl
    simp only [step, h1, h2, h3, h4]

/-- Claim C5 (amended): wherever the scan reaches an unterminated
delimiter — a backtick with no closing backtick on its line, a `<` with
no later `>` on its line, or a sentinel marker with no closing
occurrence — the scan never fails and the remaining text degrades to
ordinary segmentation (eligible for conversion where plain), but the
delimiter itself is not plain content: the unmatched backtick is
dropped from the output entirely, the unmatched `<` is emitted as an
unconverted lone-bracket span, and the unterminated sentinel marker is
matched as a tag (up to the `>` that ends the marker) and passed
through unchanged. -/
theorem c5_unterminated_fallback (convert : List Char → List Char)
    (xs ys zs m : List Char) (hm : m = M1 ∨ m = M2)
    (hxs : closeDelim btick xs = none)
    (hys : closeDelim '>' ys = none)
    (hzs : closeVerb m zs = none) :
    (segmentSpans (btick :: xs) = segmentSpans xs
      ∧ transformAll convert (btick :: xs) = transformAll convert xs)
    ∧ (segmentSpans ('<' :: ys) = (['<'], SpanKind.loneBracket) :: segmentSpans ys
      ∧ transformAll convert ('<' :: ys) = '<' :: transformAll convert ys)
    ∧ (segmentSpans (m ++ zs) = (m, SpanKind.tag) :: segmentSpans zs
      ∧ transformAll convert (m ++ zs) = m ++ transformAll convert zs) := by
  have ha : segmentSpans (btick :: xs) = segmentSpans xs :=
    segmentSpans_eq_drop (step_code_none hxs)
  have hb : segmentSpans ('<' :: ys)
      = (['<'], SpanKind.loneBracket) :: segmentSpans ys :=
    segmentSpans_eq_step (step_lt_lone_of_no_close hys)
  have hc : segmentSpans (m ++ zs) = (m, SpanKind.tag) :: segmentSpans zs :=
    segmentSpans_eq_step (step_marker_tag hm hzs)
  refine ⟨⟨ha, ?_⟩, ⟨hb, ?_⟩, ⟨hc, ?_⟩⟩
  · unfold transformAll
    rw [ha]
  · unfold transformAll
    rw [hb]
    simp only [List.map_cons, List.flatten_cons]
    rw [transformSeg_lt convert []]
    rfl
  · unfold transformAll
    rw [hc]
    simp only [List.map_cons, List.flatten_cons]
    have hmseg : transformSeg convert m = m := by
      rcases hm with rfl | rfl
      · have hsh : M1 = '<' :: M1.tail := rfl
        rw [hsh]
        exact transformSeg_lt convert _
      · have hsh : M2 = '<' :: M2.tail := rfl
        rw [hsh]
        exact transformSeg_lt convert _
    rw [hmseg]

/-- Witness for C5 (amended) at concrete unterminated delimiters. -/
theorem c5_unterminated_fallback_witness :
    (segmentSpans (btick :: "y".data) = segmentSpans ("y".data)
      ∧ transformAll (fun _ => "Q".data) (btick :: "y".data)
          = transformAll (fun _ => "Q".data) ("y".data))
    ∧ (segmentSpans ('<' :: "w".data)
          = (['<'], SpanKind.loneBracket) :: segmentSpans ("w".data)
      ∧ transformAll (fun _ => "Q".data) ('<' :: "w".data)
          = '<' :: transformAll (fun _ => "Q".data) ("w".data))
    ∧ (segmentSpans (M1 ++ "z".data) = (M1, SpanKind.tag) :: segmentSpans ("z".data)
      ∧ transformAll (fun _ => "Q".data) (M1 ++ "z".data)
          = M1 ++ transformAll (fun _ => "Q".data) ("z".data)) :=
  c5_unterminated_fallback (fun _ => "Q".data) ("y".data) ("w".data) ("z".data) M1
    (Or.inl rfl) (by decide) (by decide) (by decide)

/-- Claim C7 (counterexample): the path rewrite does not guarantee the
absence of the token in the written text: on a bypassed document ending
in `/zht/zht/`, one `str.replace` pass leaves a `/zht/` occurrence. -/
theorem c7_counterexample :
    pipeline (fun t => t) (M2 ++ "/zht/zht/".data) = M2 ++ "/zht/".data
    ∧ occursTok zhtTok (pipeline (fun t => t) (M2 ++ "/zht/zht/".data)) = true := by
  decide

/-- Claim C7 (amended): the rewrite is one left-to-right non-overlapping
`str.replace` pass: a text with no occurrence of the token is unchanged,
and a leading occurrence is replaced with the scan resuming after the
replacement (so replacements can juxtapose text into new occurrences). -/
theorem c7_path_rewrite (t b : List Char) (h : occursTok zhtTok t = false) :
    pyReplace zhtTok ['/'] t = t
    ∧ pyReplace zhtTok ['/'] (zhtTok ++ b) = '/' :: pyReplace zhtTok ['/'] b := by
  constructor
  · exact pyReplace_no_occ (by decide) t h
  · exact pyReplace_head_occ zhtTok ['/'] b (by decide)

/-- Witness for C7 (amended) at concrete texts. -/
theorem c7_path_rewrite_witness :
    pyReplace zhtTok ['/'] ("abc".data) = "abc".data
    ∧ pyReplace zhtTok ['/'] (zhtTok ++ "x".data)
        = '/' :: pyReplace zhtTok ['/'] ("x".data) :=
  ⟨(c7_path_rewrite ("abc".data) ("x".data) (by decide)).1,
   (c7_path_rewrite ("abc".data) ("x".data) (by decide)).2⟩

/-- Claim C9 (counterexample): with the identity converter (which is in
particular the identity on Han-free text) the Han-free document
`a` + backtick + `b` is not mapped to itself up to the path rewrite: the
backtick is dropped. -/
theorem c9_counterexample :
    hanFree ("a`b".data) = true
    ∧ pipeline (fun t => t) ("a`b".data) = "ab".data
    ∧ pyReplace zhtTok ['/'] ("a`b".data) = "a`b".data
    ∧ "ab".data ≠ "a`b".data := by
  decide

/-- Claim C9 (amended): if the Converter is the identity on Han-free
text, then on a Han-free document whose segmentation drops no character
(the concatenation of the segments is the document itself) the pipeline
output is the input with only the path-prefix rewrite applied. -/
theorem c9_identity_on_hanfree (convert : List Char → List Char) (doc : List Char)
    (hconv : ∀ t, hanFree t = true → convert t = t)
    (hdoc : hanFree doc = true)
    (hjoin : (segment doc).flatten = doc) :
    pipeline convert doc = pyReplace zhtTok ['/'] doc := by
  unfold pipeline
  congr 1
  unfold processDoc
  split
  · rfl
  · have hseg : ∀ pr ∈ segmentSpans doc, transformSeg convert pr.1 = pr.1 := by
      intro pr hpr
      have hsub : ∀ c ∈ pr.1, c ∈ doc := by
        intro c hc
        rw [← hjoin]
        rw [List.mem_flatten]
        refine ⟨pr.1, ?_, hc⟩
        simp only [segment, List.mem_map]
        exact ⟨pr, hpr, rfl⟩
      have hfree : hanFree pr.1 = true := by
        rw [hanFree, List.all_eq_true]
        intro c hc
        exact List.all_eq_true.mp hdoc c (hsub c hc)
      unfold transformSeg
      split
      · rfl
      · exact hconv pr.1 hfree
    show transformAll convert doc = doc
    unfold transformAll
    calc ((segmentSpans doc).map (fun pr => transformSeg convert pr.1)).flatten
        = ((segmentSpans doc).map (fun pr => pr.1)).flatten := by
          rw [List.map_congr_left hseg]
      _ = doc := by
          have hmap : (segmentSpans doc).map (fun pr => pr.1) = segment doc := rfl
          rw [hmap]
          exact hjoin

/-- Witness for C9 (amended) at a concrete Han-free markup document. -/
theorem c9_identity_on_hanfree_witness :
    pipeline (fun t => t) ("ab<c>".data) = pyReplace zhtTok ['/'] ("ab<c>".data) :=
  c9_identity_on_hanfree (fun t => t) ("ab<c>".data)
    (fun _ _ => rfl) (by decide) (by decide)

/-- A nonempty all-plain segment is sent to the Converter. -/
theorem transformSeg_plain_list (convert : List Char → List Char) {w : List Char}
    (hw : w ≠ []) (hwp : ∀ c ∈ w, plainChar c = true) :
    transformSeg convert w = convert w := by
  obtain ⟨x, w', rfl⟩ : ∃ x w', w = x :: w' := by
    cases w with
    | nil => exact absurd rfl hw
    | cons x w' => exact ⟨x, w', rfl⟩
  exact transformSeg_conv convert w' (hwp x (by simp))

/-- Claim C6: an inline verbatim region not at document start — a
sentinel marker, nonempty content, and the closing occurrence of the
same marker — is emitted as one verbatim segment, byte-identical in the
output, while the prefix is converted and the suffix is processed
normally; and on the spec's concrete example (where the marker is at
document start) the output equals the input. -/
theorem c6_inline_verbatim (convert : List Char → List Char)
    (p c s m : List Char)
    (hm : m = M1 ∨ m = M2)
    (hp : p ≠ []) (hpc : ∀ ch ∈ p, plainChar ch = true)
    (hclose : closeVerb m (c ++ (m ++ s)) = some (c ++ m, s)) :
    processDoc convert (p ++ (m ++ (c ++ (m ++ s))))
        = convert p ++ ((m ++ (c ++ m)) ++ transformAll convert s)
    ∧ pipeline convert ("<!-- do not translate -->的确<!-- do not translate -->".data)
        = "<!-- do not translate -->的确<!-- do not translate -->".data := by
  refine ⟨?_, rfl⟩
  obtain ⟨x, p', rfl⟩ : ∃ x p', p = x :: p' := by
    cases p with
    | nil => exact absurd rfl hp
    | cons x p' => exact ⟨x, p', rfl⟩
  have hx : plainChar x = true := hpc x (by simp)
  have hxlt : x ≠ '<' := (plainChar_true_iff.mp hx).2.1
  have hmhead : ∀ y, (m ++ (c ++ (m ++ s))).head? = some y → plainChar y = false := by
    intro y hy
    rcases hm with rfl | rfl
    · have hM : (M1 ++ (c ++ (M1 ++ s))) = '<' :: (M1.tail ++ (c ++ (M1 ++ s))) := rfl
      rw [hM, List.head?_cons, Option.some.injEq] at hy
      rw [← hy]
      decide
    · have hM : (M2 ++ (c ++ (M2 ++ s))) = '<' :: (M2.tail ++ (c ++ (M2 ++ s))) := rfl
      rw [hM, List.head?_cons, Option.some.injEq] at hy
      rw [← hy]
      decide
  have hspans : segmentSpans ((x :: p') ++ (m ++ (c ++ (m ++ s))))
      = ((x :: p'), SpanKind.plainText) :: segmentSpans (m ++ (c ++ (m ++ s))) :=
    segmentSpans_plain_run (by simp) hpc hmhead
  have hverb : segmentSpans (m ++ (c ++ (m ++ s)))
      = (m ++ (c ++ m), SpanKind.verbatim) :: segmentSpans s := by
    rcases hm with rfl | rfl
    · exact segmentSpans_eq_step (step_verb1 hclose)
    · exact segmentSpans_eq_step (step_verb2 hclose)
  have hnopre1 : M1.isPrefixOf ((x :: p') ++ (m ++ (c ++ (m ++ s)))) = false := by
    rw [List.cons_append]
    exact M1_not_pre hxlt _
  have hnopre2 : M2.isPrefixOf ((x :: p') ++ (m ++ (c ++ (m ++ s)))) = false := by
    rw [List.cons_append]
    exact M2_not_pre hxlt _
  have hmseg : transformSeg convert (m ++ (c ++ m)) = m ++ (c ++ m) := by
    rcases hm with rfl | rfl
    · have hsh : M1 ++ (c ++ M1) = '<' :: (M1.tail ++ (c ++ M1)) := rfl
      rw [hsh]
      exact transformSeg_lt convert _
    · have hsh : M2 ++ (c ++ M2) = '<' :: (M2.tail ++ (c ++ M2)) := rfl
      rw [hsh]
      exact transformSeg_lt convert _
  unfold processDoc
  rw [hnopre1, hnopre2]
  simp only [Bool.or_self, Bool.false_eq_true, if_false]
  unfold transformAll
  rw [hspans, hverb]
  simp only [List.map_cons, List.flatten_cons]
  rw [transformSeg_conv convert p' hx, hmseg]

/-- Witness for C6 at a concrete document `x` + marker + `y` + marker + `z`. -/
theorem c6_inline_verbatim_witness :
    processDoc (fun _ => "Q".data) (['x'] ++ (M1 ++ (['y'] ++ (M1 ++ ['z']))))
      = (fun (_ : List Char) => "Q".data) ['x']
        ++ ((M1 ++ (['y'] ++ M1)) ++ transformAll (fun _ => "Q".data) ['z']) :=
  (c6_inline_verbatim (fun _ => "Q".data) ['x'] ['y'] ['z'] M1
    (Or.inl rfl) (by decide) (by decide) (by decide)).1

/-- Claim C8: code-span matching is lazy.  Two backtick-delimited spans
(with backtick-free, newline-free contents), adjacent or separated by a
plain run, are segmented as two separate CodeSpans, each closing at the
nearest delimiter — never as one span covering both. -/
theorem c8_lazy_code_spans (s t u : List Char)
    (hs : s ≠ []) (hsc : ∀ ch ∈ s, ch ≠ btick ∧ ch ≠ '\n')
    (ht : t ≠ []) (htc : ∀ ch ∈ t, ch ≠ btick ∧ ch ≠ '\n')
    (hu : u ≠ []) (hup : ∀ ch ∈ u, plainChar ch = true) :
    segmentSpans (btick :: (s ++ btick :: (u ++ btick :: (t ++ [btick]))))
      = [(btick :: (s ++ [btick]), SpanKind.codeSpan), (u, SpanKind.plainText),
         (btick :: (t ++ [btick]), SpanKind.codeSpan)]
    ∧ segmentSpans (btick :: (s ++ btick :: (btick :: (t ++ [btick]))))
      = [(btick :: (s ++ [btick]), SpanKind.codeSpan),
         (btick :: (t ++ [btick]), SpanKind.codeSpan)] := by
  have hsecond : segmentSpans (btick :: (t ++ [btick]))
      = [(btick :: (t ++ [btick]), SpanKind.codeSpan)] := by
    have hstep := step_code_span (r := ([] : List Char)) ht htc
    rw [segmentSpans_eq_step hstep]
    rfl
  constructor
  · have hstep1 := step_code_span (r := u ++ btick :: (t ++ [btick])) hs hsc
    rw [segmentSpans_eq_step hstep1]
    have hmid : segmentSpans (u ++ btick :: (t ++ [btick]))
        = (u, SpanKind.plainText) :: segmentSpans (btick :: (t ++ [btick])) := by
      refine segmentSpans_plain_run hu hup ?_
      intro y hy
      simp only [List.head?_cons, Option.some.injEq] at hy
      rw [← hy]
      decide
    rw [hmid, hsecond]
  · have hstep1 := step_code_span (r := btick :: (t ++ [btick])) hs hsc
    rw [segmentSpans_eq_step hstep1, hsecond]

/-- Witness for C8 at two concrete one-character spans. -/
theorem c8_lazy_code_spans_witness :
    segmentSpans (btick :: (['a'] ++ btick :: (['c'] ++ btick :: (['b'] ++ [btick]))))
      = [(btick :: (['a'] ++ [btick]), SpanKind.codeSpan), (['c'], SpanKind.plainText),
         (btick :: (['b'] ++ [btick]), SpanKind.codeSpan)]
    ∧ segmentSpans (btick :: (['a'] ++ btick :: (btick :: (['b'] ++ [btick]))))
      = [(btick :: (['a'] ++ [btick]), SpanKind.codeSpan),
         (btick :: (['b'] ++ [btick]), SpanKind.codeSpan)] :=
  c8_lazy_code_spans ['a'] ['b'] ['c'] (by decide) (by decide) (by decide)
    (by decide) (by decide) (by decide)

/-- Claim C10: delimiter matching does not cross lines.  A `<...>` pair
separated by a newline is not a Tag: the `<` becomes a lone bracket, the
interior (attribute text on continuation lines included) is one plain
segment sent to the Converter, and the `>` becomes a lone bracket.  A
backtick pair spanning a newline is not a CodeSpan (the backticks are
dropped and the interior is plain), and the empty pair of two adjacent
backticks is not a CodeSpan. -/
theorem c10_line_bounded (convert : List Char → List Char) (a b : List Char)
    (ha : ∀ ch ∈ a, plainChar ch = true) (hb : ∀ ch ∈ b, plainChar ch = true) :
    segmentSpans ('<' :: (a ++ '\n' :: (b ++ ['>'])))
      = [(['<'], SpanKind.loneBracket), (a ++ '\n' :: b, SpanKind.plainText),
         (['>'], SpanKind.loneBracket)]
    ∧ processDoc convert ('<' :: (a ++ '\n' :: (b ++ ['>'])))
        = '<' :: (convert (a ++ '\n' :: b) ++ convert ['>'])
    ∧ segmentSpans (btick :: (a ++ '\n' :: (b ++ [btick])))
      = [(a ++ '\n' :: b, SpanKind.plainText)]
    ∧ segmentSpans [btick, btick] = [] := by
  have hmid : ∀ ch ∈ a ++ '\n' :: b, plainChar ch = true := by
    intro ch hch
    rcases List.mem_append.mp hch with h | h
    · exact ha ch h
    · rcases List.mem_cons.mp h with rfl | h
      · decide
      · exact hb ch h
  have hagt : ∀ ch ∈ a, ch ≠ '>' := fun ch hch =>
    (plainChar_true_iff.mp (ha ch hch)).2.2
  have hatick : ∀ ch ∈ a, ch ≠ btick := fun ch hch =>
    (plainChar_true_iff.mp (ha ch hch)).1
  have h1 : tryVerb M1 ('<' :: (a ++ '\n' :: (b ++ ['>']))) = none :=
    tryVerb_none_of (marker_not_pre rfl (by decide) (by decide) a (b ++ ['>']) ha)
  have h2 : tryVerb M2 ('<' :: (a ++ '\n' :: (b ++ ['>']))) = none :=
    tryVerb_none_of (marker_not_pre rfl (by decide) (by decide) a (b ++ ['>']) ha)
  have hcd : closeDelim '>' (a ++ '\n' :: (b ++ ['>'])) = none :=
    closeDelim_none (by decide) hagt
  have hstep1 := step_lt_lone h1 h2 hcd
  have hreassoc : a ++ '\n' :: (b ++ ['>']) = (a ++ '\n' :: b) ++ ['>'] := by
    simp
  have htag : segmentSpans ('<' :: (a ++ '\n' :: (b ++ ['>'])))
      = [(['<'], SpanKind.loneBracket), (a ++ '\n' :: b, SpanKind.plainText),
         (['>'], SpanKind.loneBracket)] := by
    rw [segmentSpans_eq_step hstep1, hreassoc]
    have hplain : segmentSpans ((a ++ '\n' :: b) ++ ['>'])
        = (a ++ '\n' :: b, SpanKind.plainText) :: segmentSpans ['>'] := by
      refine segmentSpans_plain_run (by simp) hmid ?_
      intro y hy
      simp only [List.head?_cons, Option.some.injEq] at hy
      rw [← hy]
      decide
    rw [hplain]
    rfl
  refine ⟨htag, ?_, ?_, by decide⟩
  · have hnopre1 : M1.isPrefixOf ('<' :: (a ++ '\n' :: (b ++ ['>']))) = false :=
      marker_not_pre rfl (by decide) (by decide) a (b ++ ['>']) ha
    have hnopre2 : M2.isPrefixOf ('<' :: (a ++ '\n' :: (b ++ ['>']))) = false :=
      marker_not_pre rfl (by decide) (by decide) a (b ++ ['>']) ha
    unfold processDoc
    rw [hnopre1, hnopre2]
    simp only [Bool.or_self, Bool.false_eq_true, if_false]
    unfold transformAll
    rw [htag]
    simp only [List.map_cons, List.map_nil, List.flatten_cons, List.flatten_nil]
    rw [transformSeg_lt convert [], transformSeg_gt convert,
      transformSeg_plain_list convert (by simp) hmid]
    simp
  · have hcd2 : closeDelim btick (a ++ '\n' :: (b ++ [btick])) = none :=
      closeDelim_none (by decide) hatick
    rw [segmentSpans_eq_drop (step_code_none hcd2)]
    have hreassoc2 : a ++ '\n' :: (b ++ [btick]) = (a ++ '\n' :: b) ++ [btick] := by
      simp
    rw [hreassoc2]
    have hplain : segmentSpans ((a ++ '\n' :: b) ++ [btick])
        = (a ++ '\n' :: b, SpanKind.plainText) :: segmentSpans [btick] := by
      refine segmentSpans_plain_run (by simp) hmid ?_
      intro y hy
      simp only [List.head?_cons, Option.some.injEq] at hy
      rw [← hy]
      decide
    rw [hplain]
    have : segmentSpans [btick] = [] := by decide
    rw [this]

/-- Witness for C10 at a concrete multi-line pseudo-tag and code pair. -/
theorem c10_line_bounded_witness :
    segmentSpans ('<' :: (['a'] ++ '\n' :: (['b'] ++ ['>'])))
      = [(['<'], SpanKind.loneBracket), (['a'] ++ '\n' :: ['b'], SpanKind.plainText),
         (['>'], SpanKind.loneBracket)]
    ∧ processDoc (fun _ => "Q".data) ('<' :: (['a'] ++ '\n' :: (['b'] ++ ['>'])))
        = '<' :: ((fun (_ : List Char) => "Q".data) (['a'] ++ '\n' :: ['b'])
            ++ (fun (_ : List Char) => "Q".data) ['>'])
    ∧ segmentSpans (btick :: (['a'] ++ '\n' :: (['b'] ++ [btick])))
      = [(['a'] ++ '\n' :: ['b'], SpanKind.plainText)]
    ∧ segmentSpans [btick, btick] = [] :=
  c10_line_bounded (fun _ => "Q".data) ['a'] ['b'] (by decide) (by decide)

end Tc2sc
